import Mathlib

/-!
Verification development for the SiegPy repository (square-well potential
Siegert-state toolkit).  The repository sources visible here are the
exploratory notebooks that drive the `siegpy` library; the library classes
themselves (`SWPotential`, `SWPBasisSet`, the state classes) are not among
the sources, so every operation below is modelled from the specification
and from the call sites in the notebooks, as documented on each definition.
All numeric payloads are modelled over `ℚ` so that every definition is
executable; the analytic kernels of the physics (inner products, phases,
pole couplings) are abstracted as explicit function parameters, since the
specification fixes only the combinatorial structure built on top of them.
-/

namespace SiegPy

/-- Modelled from the spec: the five discrete types tagging a state
("bound, antibound, resonant, antiresonant, continuum"); the siegpy state
classes are not under the sources. -/
inductive SiegertType
  | bound
  | antibound
  | resonant
  | antiresonant
  | continuum
  deriving DecidableEq

/-- Modelled from the spec: "a finite square well parameterized by width and
depth; immutable once constructed" (`SWPotential`, constructed in the
notebooks as `SWPotential(l, V0, grid=xgrid)`). -/
structure SWPotential where
  width : ℚ
  depth : ℚ
  deriving DecidableEq

/-- Modelled from the spec: a Siegert state "tagged with a discrete type",
solving the Schroedinger equation "at a complex wavenumber" (modelled as a
pair of rationals, real and imaginary part), which "carries its associated
potential (shared, read-only) and a spatial grid once discretized". -/
structure SiegertState where
  stype : SiegertType
  wavenumber : ℚ × ℚ
  potential : SWPotential
  grid : Option (List ℚ)
  deriving DecidableEq

/-- Modelled from the spec: "an ordered collection of states of possibly
mixed type" (`SWPBasisSet`). -/
structure SWPBasisSet where
  states : List SiegertState
  deriving DecidableEq

/-- Modelled from the spec: "an analytic wavepacket (Gaussian, rectangular,
etc.) used as a probe for inner products against the basis"; the notebooks
build `Gaussian(sigma, x_c, k0=k_0)` and
`Rectangular.from_width_and_center(a, x_c)`. -/
inductive TestFunction
  | gaussian (sigma center k0 : ℚ)
  | rectangular (width center : ℚ)
  deriving DecidableEq

/-- Modelled from the spec: discretizing a state stores the spatial grid on
it (`s.grid = xgrid` in the notebooks); no other field is touched. -/
def SiegertState.setGrid (s : SiegertState) (g : List ℚ) : SiegertState :=
  { s with grid := some g }

/-- Modelled from the spec: basis-set concatenation (`SWPBasisSet.__add__`,
used in the notebooks as `cont + bnds`); an ordered collection "supporting
concatenation". -/
def SWPBasisSet.add (a b : SWPBasisSet) : SWPBasisSet :=
  ⟨a.states ++ b.states⟩

/-- Number of states held by a basis set (`len(basisset)` in the notebooks). -/
def SWPBasisSet.size (bs : SWPBasisSet) : ℕ :=
  bs.states.length

/-- Modelled from the spec: "filtering by type" keeps, in order, the states
tagged with the requested discrete type. -/
def SWPBasisSet.ofType (bs : SWPBasisSet) (t : SiegertType) : SWPBasisSet :=
  ⟨bs.states.filter fun s => decide (s.stype = t)⟩

/-- Modelled from the spec: the `.bounds` filter used by the notebooks. -/
def SWPBasisSet.bounds (bs : SWPBasisSet) : SWPBasisSet :=
  bs.ofType SiegertType.bound

/-- Modelled from the spec: the `.antibounds` filter used by the notebooks. -/
def SWPBasisSet.antibounds (bs : SWPBasisSet) : SWPBasisSet :=
  bs.ofType SiegertType.antibound

/-- Modelled from the spec: the `.resonants` filter used by the notebooks. -/
def SWPBasisSet.resonants (bs : SWPBasisSet) : SWPBasisSet :=
  bs.ofType SiegertType.resonant

/-- Modelled from the spec: the `.antiresonants` filter used by the notebooks. -/
def SWPBasisSet.antiresonants (bs : SWPBasisSet) : SWPBasisSet :=
  bs.ofType SiegertType.antiresonant

/-- Modelled from the spec: the potential of a basis set
(`siegerts.potential` in the notebooks, interchangeable with
`siegerts[0].potential` because "states in a basis set share the same
potential"); `none` on an empty set models the Python failure. -/
def SWPBasisSet.potential (bs : SWPBasisSet) : Option SWPotential :=
  bs.states.head?.map SiegertState.potential

/-- All states of the set carry the potential `p`. -/
def sharedPotential (bs : SWPBasisSet) (p : SWPotential) : Prop :=
  ∀ s ∈ bs.states, s.potential = p

instance (bs : SWPBasisSet) (p : SWPotential) : Decidable (sharedPotential bs p) :=
  List.decidableBAll _ bs.states

/-- Number of wavenumber grid points below the cutoff: the largest `n` with
`n * hk ≤ kmax`. -/
def contGridSize (kmax hk : ℚ) : ℕ :=
  (⌊kmax / hk⌋).toNat

/-- Modelled from the spec: "continuum states are generated on a uniform
wavenumber grid with a given step and cutoff"; the grid holds the
wavenumbers `hk, 2*hk, ...` up to the cutoff `kmax`. -/
def continuumGrid (kmax hk : ℚ) : List ℚ :=
  (List.range (contGridSize kmax hk)).map fun i : ℕ => hk * ((i : ℚ) + 1)

/-- Modelled from the spec: `SWPBasisSet.find_continuum_states(pot, kmax, hk,
grid=...)` builds one continuum state of the potential per point of the
uniform wavenumber grid (a continuum wavenumber is real, so its imaginary
part is zero); the parity selection (`even_only`) of the Python signature is
abstracted away since only the wavenumber grid is specified. -/
def SWPBasisSet.find_continuum_states (pot : SWPotential) (kmax hk : ℚ)
    (grid : Option (List ℚ)) : SWPBasisSet :=
  ⟨(continuumGrid kmax hk).map fun k =>
    ⟨SiegertType.continuum, (k, 0), pot, grid⟩⟩

/-- Modelled from the spec: `SWPBasisSet.find_Siegert_states(pot, ...)`
locates complex-energy eigenstates of the given potential; the root-finding
machinery is abstracted as the list of located (type, wavenumber) pairs, and
the operation tags each located state with the potential it was searched
in. -/
def SWPBasisSet.find_Siegert_states (pot : SWPotential)
    (found : List (SiegertType × ℚ × ℚ)) (grid : Option (List ℚ)) : SWPBasisSet :=
  ⟨found.map fun tk => ⟨tk.1, tk.2, pot, grid⟩⟩

/-- The antiresonant partner of a resonant wavenumber `k` sits at `-conj k`:
mirrored real part, same imaginary part. -/
def mirrorWavenumber (k : ℚ × ℚ) : ℚ × ℚ :=
  (-k.1, k.2)

/-- Modelled from the spec: the tabulated state data read by
`SWPBasisSet.from_file` ("file I/O of tabulated state data"): one potential
and the wavenumbers of its bound, antibound and resonant states (each
resonant state has an index-aligned antiresonant partner). -/
structure SiegertData where
  pot : SWPotential
  boundKs : List (ℚ × ℚ)
  antiboundKs : List (ℚ × ℚ)
  resonantKs : List (ℚ × ℚ)
  deriving DecidableEq

/-- Modelled from the spec: `SWPBasisSet.from_file(filename, nres=nres)`
loads all bound and antibound states and the first `nres` resonant couples,
every state carrying the potential tabulated in the file; the notebooks use
the loaded set through the aligned accesses `res[i], ares[i]`. -/
def SWPBasisSet.from_file (data : SiegertData) (nres : ℕ) : SWPBasisSet :=
  ⟨(data.boundKs.map fun k => ⟨SiegertType.bound, k, data.pot, none⟩)
    ++ (data.antiboundKs.map fun k => ⟨SiegertType.antibound, k, data.pot, none⟩)
    ++ ((data.resonantKs.take nres).map fun k =>
        ⟨SiegertType.resonant, k, data.pot, none⟩)
    ++ ((data.resonantKs.take nres).map fun k =>
        ⟨SiegertType.antiresonant, mirrorWavenumber k, data.pot, none⟩)⟩

/-- `r` and `a` form a resonant couple: a resonant state and the
antiresonant state at the mirrored wavenumber of the same potential. -/
def resonantCouple (r a : SiegertState) : Prop :=
  r.stype = SiegertType.resonant ∧ a.stype = SiegertType.antiresonant ∧
    a.wavenumber = mirrorWavenumber r.wavenumber ∧ a.potential = r.potential

/-- Value of a sum-over-states expansion at one wavenumber: each state
contributes through the abstract coupling kernel. -/
def strengthAt (coupling : SiegertState → TestFunction → ℚ → ℚ)
    (states : List SiegertState) (test : TestFunction) (k : ℚ) : ℚ :=
  (states.map fun s => coupling s test k).sum

/-- Modelled from the spec: `SWPBasisSet.MLE_strength_function(test, kgrid)`,
the "expansion of a Green's function as a sum over discrete poles": one
value per point of the wavenumber grid, each a sum over the states of the
set of the per-pole contribution; the analytic per-pole kernel (inner
products of the test function with the state and the pole factor) is the
abstract parameter `coupling`. -/
def SWPBasisSet.MLE_strength_function (bs : SWPBasisSet)
    (coupling : SiegertState → TestFunction → ℚ → ℚ)
    (test : TestFunction) (kgrid : List ℚ) : List ℚ :=
  kgrid.map (strengthAt coupling bs.states test)

/-- Pointwise sum of two numpy-style arrays (`a + b` on arrays in the
notebooks). -/
def addLists (a b : List ℚ) : List ℚ :=
  List.zipWith (· + ·) a b

/-- Pointwise sum of a list of numpy-style arrays of length `n`
(`sum(r_MLE)` in the notebooks). -/
def sumLists (n : ℕ) (ls : List (List ℚ)) : List ℚ :=
  ls.foldr addLists (List.replicate n 0)

/-- Modelled from the spec: the propagated wavepacket at one time, one value
per spatial grid point, each a sum over the expansion states of the
amplitude kernel `amp` (inner product, state value and time phase are not
specified, so they are abstracted into `amp`). -/
def propagationRow (amp : SiegertState → TestFunction → ℚ → ℚ → ℚ)
    (states : List SiegertState) (test : TestFunction) (xgrid : List ℚ)
    (t : ℚ) : List ℚ :=
  xgrid.map fun x => (states.map fun s => amp s test t x).sum

/-- The states a Siegert-states expansion runs over: every discrete
(non-continuum) state of the set. -/
def SWPBasisSet.siegertStates (bs : SWPBasisSet) : List SiegertState :=
  bs.states.filter fun s => decide (s.stype ≠ SiegertType.continuum)

/-- The states the Berggren expansion runs over: "combining bound/resonant
states" (the deformed-continuum part is empty for the purely discrete sets
the notebooks propagate). -/
def SWPBasisSet.berggrenStates (bs : SWPBasisSet) : List SiegertState :=
  bs.states.filter fun s =>
    decide (s.stype = SiegertType.bound ∨ s.stype = SiegertType.resonant)

/-- Modelled from the spec: `SWPBasisSet.exact_propagation(test, time_grid)`
expands over all states of the (bound plus continuum) set and returns one
propagated wavefunction per time of the given time grid. -/
def SWPBasisSet.exact_propagation (bs : SWPBasisSet)
    (amp : SiegertState → TestFunction → ℚ → ℚ → ℚ) (test : TestFunction)
    (xgrid time_grid : List ℚ) : List (List ℚ) :=
  time_grid.map (propagationRow amp bs.states test xgrid)

/-- Modelled from the spec: `SWPBasisSet.exact_Siegert_propagation(test,
time_grid)` expands over the discrete Siegert states with the exact-Siegert
weights (carried by its own amplitude kernel). -/
def SWPBasisSet.exact_Siegert_propagation (bs : SWPBasisSet)
    (amp : SiegertState → TestFunction → ℚ → ℚ → ℚ) (test : TestFunction)
    (xgrid time_grid : List ℚ) : List (List ℚ) :=
  time_grid.map (propagationRow amp bs.siegertStates test xgrid)

/-- Modelled from the spec: `SWPBasisSet.MLE_propagation(test, time_grid)`,
the Mittag-Leffler expansion of the propagation, a sum over the discrete
poles with the MLE weights (carried by its own amplitude kernel). -/
def SWPBasisSet.MLE_propagation (bs : SWPBasisSet)
    (amp : SiegertState → TestFunction → ℚ → ℚ → ℚ) (test : TestFunction)
    (xgrid time_grid : List ℚ) : List (List ℚ) :=
  time_grid.map (propagationRow amp bs.siegertStates test xgrid)

/-- Modelled from the spec: `SWPBasisSet.Berggren_propagation(test,
time_grid)`, the Berggren expansion of the propagation over the bound and
resonant states. -/
def SWPBasisSet.Berggren_propagation (bs : SWPBasisSet)
    (amp : SiegertState → TestFunction → ℚ → ℚ → ℚ) (test : TestFunction)
    (xgrid time_grid : List ℚ) : List (List ℚ) :=
  time_grid.map (propagationRow amp bs.berggrenStates test xgrid)

/-- The wavenumber grid returned by the completeness-convergence evaluation:
`0, hk, 2*hk, ...` up to the cutoff `kmax` (the notebook aligns the grids of
two calls by `ref[int(h_k/h_k_ref)*i]`, which requires this common origin). -/
def crGrid (hk kmax : ℚ) : List ℚ :=
  (List.range (contGridSize kmax hk + 1)).map fun i : ℕ => hk * (i : ℚ)

/-- Completeness-relation value after the first `i` continuum grid points:
the bound-states part plus the Riemann sum of the continuum contribution. -/
def crValue (boundPart : ℚ) (contrib : ℚ → ℚ) (hk : ℚ) (i : ℕ) : ℚ :=
  boundPart + hk * ((List.range i).map fun j : ℕ => contrib (hk * ((j : ℚ) + 1))).sum

/-- Modelled from the spec: `SWPBasisSet.exact_completeness_convergence(test,
hk=hk, kmax=kmax)` returns the pair `(k_grid, CR)`: the uniform wavenumber
grid of step `hk` and, for each of its points, the completeness-relation
value accumulated up to that wavenumber; the bound-states term and the
continuum integrand are the abstract kernels `boundPart` and `contrib`. -/
def SWPBasisSet.exact_completeness_convergence (bs : SWPBasisSet)
    (boundPart : SWPBasisSet → TestFunction → ℚ)
    (contrib : SWPBasisSet → TestFunction → ℚ → ℚ)
    (test : TestFunction) (hk kmax : ℚ) : List ℚ × List ℚ :=
  (crGrid hk kmax,
    (List.range (contGridSize kmax hk + 1)).map fun i =>
      crValue (boundPart bs test) (contrib bs test) hk i)

/-- Modelled from the spec: the state of a notebook study: "a single
numerical library (root-finder + basis-set container + propagator formulas)
is invoked synchronously from notebooks"; a study holds the potential under
consideration and the basis sets built so far. -/
structure Study where
  pot : SWPotential
  sets : List SWPBasisSet
  deriving DecidableEq

/-- Which of the four propagation expansions to evaluate. -/
inductive PropKind
  | exact
  | exactSiegert
  | mle
  | berggren
  deriving DecidableEq

/-- Modelled from the spec: the library operations a study can invoke
(state finding, discretization, propagation, completeness and
strength-function evaluation, concatenation); basis sets are referred to by
their index among the sets built so far. -/
inductive LibOp
  | findSiegert (found : List (SiegertType × ℚ × ℚ)) (grid : Option (List ℚ))
  | findContinuum (kmax hk : ℚ) (grid : Option (List ℚ))
  | discretize (i : ℕ) (xgrid : List ℚ)
  | propagate (kind : PropKind) (amp : SiegertState → TestFunction → ℚ → ℚ → ℚ)
      (i : ℕ) (test : TestFunction) (xgrid time_grid : List ℚ)
  | completeness (boundPart : SWPBasisSet → TestFunction → ℚ)
      (contrib : SWPBasisSet → TestFunction → ℚ → ℚ)
      (i : ℕ) (test : TestFunction) (hk kmax : ℚ)
  | strength (coupling : SiegertState → TestFunction → ℚ → ℚ)
      (i : ℕ) (test : TestFunction) (kgrid : List ℚ)
  | concat (i j : ℕ)

/-- The value returned by one library operation. -/
inductive LibOut
  | basis (bs : SWPBasisSet)
  | rows (r : List (List ℚ))
  | pair (p : List ℚ × List ℚ)
  | values (v : List ℚ)
  | unit

/-- Modelled from the spec: discretizing a basis set stores the spatial
grid on each of its states (`for s in siegerts: s.grid = xgrid`). -/
def discretizeSet (bs : SWPBasisSet) (g : List ℚ) : SWPBasisSet :=
  ⟨bs.states.map fun s => s.setGrid g⟩

/-- Replace the set at index `i` by its discretization over `g`. -/
def discretizeIdx (sets : List SWPBasisSet) (i : ℕ) (g : List ℚ) :
    List SWPBasisSet :=
  match sets, i with
  | [], _ => []
  | b :: bs, 0 => discretizeSet b g :: bs
  | b :: bs, Nat.succ n => b :: discretizeIdx bs n g

/-- The basis set a study refers to by index (empty set past the end). -/
def Study.getSet (st : Study) (i : ℕ) : SWPBasisSet :=
  st.sets.getD i ⟨[]⟩

/-- Modelled from the spec: running one library operation on a study: the
state-finding operations record a new basis set built over the study's
potential, discretization rewrites the grids of one set, and the evaluation
operations (propagation, completeness, strength function, concatenation)
return their value. -/
def runOp (st : Study) : LibOp → LibOut × Study
  | LibOp.findSiegert found grid =>
      let bs := SWPBasisSet.find_Siegert_states st.pot found grid
      (LibOut.basis bs, ⟨st.pot, st.sets ++ [bs]⟩)
  | LibOp.findContinuum kmax hk grid =>
      let bs := SWPBasisSet.find_continuum_states st.pot kmax hk grid
      (LibOut.basis bs, ⟨st.pot, st.sets ++ [bs]⟩)
  | LibOp.discretize i g => (LibOut.unit, ⟨st.pot, discretizeIdx st.sets i g⟩)
  | LibOp.propagate kind amp i test xgrid time_grid =>
      let bs := st.getSet i
      let out := match kind with
        | PropKind.exact => bs.exact_propagation amp test xgrid time_grid
        | PropKind.exactSiegert => bs.exact_Siegert_propagation amp test xgrid time_grid
        | PropKind.mle => bs.MLE_propagation amp test xgrid time_grid
        | PropKind.berggren => bs.Berggren_propagation amp test xgrid time_grid
      (LibOut.rows out, st)
  | LibOp.completeness boundPart contrib i test hk kmax =>
      (LibOut.pair ((st.getSet i).exact_completeness_convergence boundPart contrib test hk kmax), st)
  | LibOp.strength coupling i test kgrid =>
      (LibOut.values ((st.getSet i).MLE_strength_function coupling test kgrid), st)
  | LibOp.concat i j => (LibOut.basis ((st.getSet i).add (st.getSet j)), st)

/-- Running a sequence of library operations, keeping the final study. -/
def runOps (st : Study) : List LibOp → Study
  | [] => st
  | op :: ops => runOps (runOp st op).2 ops

/-- The operations the spec singles out as pure evaluations: propagation,
completeness evaluation, strength-function evaluation and concatenation. -/
def pureLibOp : LibOp → Prop
  | LibOp.propagate _ _ _ _ _ _ => True
  | LibOp.completeness _ _ _ _ _ _ => True
  | LibOp.strength _ _ _ _ => True
  | LibOp.concat _ _ => True
  | _ => False

/-- The study works over the potential `p`: the study's potential is `p` and
every state of every basis set built so far carries `p`. -/
def studyShared (st : Study) (p : SWPotential) : Prop :=
  st.pot = p ∧ ∀ bs ∈ st.sets, sharedPotential bs p

instance (st : Study) (p : SWPotential) : Decidable (studyShared st p) :=
  instDecidableAnd

/-- A concrete square-well potential (width 2, depth 10) used to evaluate
the development on closed inputs. -/
def samplePot : SWPotential := ⟨2, 10⟩

/-- A concrete bound state of `samplePot`. -/
def sampleBound : SiegertState := ⟨SiegertType.bound, (0, 3), samplePot, none⟩

/-- A concrete antibound state of `samplePot`. -/
def sampleAntibound : SiegertState := ⟨SiegertType.antibound, (0, -1), samplePot, none⟩

/-- A concrete resonant state of `samplePot`. -/
def sampleRes1 : SiegertState := ⟨SiegertType.resonant, (2, -1), samplePot, none⟩

/-- The antiresonant partner of `sampleRes1`. -/
def sampleAres1 : SiegertState := ⟨SiegertType.antiresonant, (-2, -1), samplePot, none⟩

/-- A second concrete resonant state of `samplePot`. -/
def sampleRes2 : SiegertState := ⟨SiegertType.resonant, (4, -2), samplePot, none⟩

/-- The antiresonant partner of `sampleRes2`. -/
def sampleAres2 : SiegertState := ⟨SiegertType.antiresonant, (-4, -2), samplePot, none⟩

/-- A concrete Siegert basis set over `samplePot` with aligned resonant
couples. -/
def sampleSet : SWPBasisSet :=
  ⟨[sampleBound, sampleAntibound, sampleRes1, sampleRes2, sampleAres1, sampleAres2]⟩

/-- A concrete test function. -/
def sampleTest : TestFunction := TestFunction.gaussian 1 0 0

/-- A concrete amplitude kernel for propagation evaluations. -/
def sampleAmp : SiegertState → TestFunction → ℚ → ℚ → ℚ :=
  fun s _ t x => s.wavenumber.1 + t * x

/-- A concrete coupling kernel for strength-function evaluations. -/
def sampleCoupling : SiegertState → TestFunction → ℚ → ℚ :=
  fun s _ k => s.wavenumber.1 * k + s.wavenumber.2

/-- A concrete tabulated-data value for `SWPBasisSet.from_file`. -/
def sampleData : SiegertData :=
  ⟨samplePot, [(0, 3)], [(0, -1)], [(2, -1), (4, -2), (6, -3)]⟩

/-- Claim C5: concatenating two basis sets with `+` returns a basis set
containing every state of the left operand followed by every state of the
right operand, preserving the order of each (so the result's length is the
sum of the operands' lengths), and, being a pure evaluation, leaves both
operand basis sets (the study state) unchanged. -/
theorem claim5_concat_appends (a b : SWPBasisSet) :
    ((a.add b).states = a.states ++ b.states) ∧
    ((a.add b).size = a.size + b.size) ∧
    (∀ i : ℕ, i < a.size → (a.add b).states[i]? = a.states[i]?) ∧
    (∀ j : ℕ, j < b.size → (a.add b).states[a.size + j]? = b.states[j]?) ∧
    (∀ (st : Study) (i j : ℕ), (runOp st (LibOp.concat i j)).2 = st) := by
  refine ⟨rfl, ?_, ?_, ?_, ?_⟩
  · simp [SWPBasisSet.add, SWPBasisSet.size]
  · intro i hi
    simp only [SWPBasisSet.size] at hi
    show (a.states ++ b.states)[i]? = a.states[i]?
    simp [List.getElem?_append, hi]
  · intro j hj
    show (a.states ++ b.states)[a.states.length + j]? = b.states[j]?
    simp [List.getElem?_append]
  · intro st i j
    rfl

/-- Closed evaluation of `claim5_concat_appends` on concrete basis sets. -/
theorem claim5_concat_appends_witness :
    (0 < SWPBasisSet.size ⟨[sampleBound, sampleAntibound]⟩) ∧
    (0 < SWPBasisSet.size ⟨[sampleRes1]⟩) ∧
    ((SWPBasisSet.add ⟨[sampleBound, sampleAntibound]⟩ ⟨[sampleRes1]⟩).states[0]? =
      (SWPBasisSet.mk [sampleBound, sampleAntibound]).states[0]?) ∧
    ((SWPBasisSet.add ⟨[sampleBound, sampleAntibound]⟩ ⟨[sampleRes1]⟩).states[
        SWPBasisSet.size ⟨[sampleBound, sampleAntibound]⟩ + 0]? =
      (SWPBasisSet.mk [sampleRes1]).states[0]?) :=
  ⟨by decide, by decide,
    (claim5_concat_appends ⟨[sampleBound, sampleAntibound]⟩ ⟨[sampleRes1]⟩).2.2.1
      0 (by decide),
    (claim5_concat_appends ⟨[sampleBound, sampleAntibound]⟩ ⟨[sampleRes1]⟩).2.2.2.1
      0 (by decide)⟩

/-- Claim C6: every state carries exactly one of the five discrete types,
the named filters are the type filters, each type filter returns exactly the
states tagged with that type in their original order (an order-preserving
sublist), and filters for two different types select disjoint
sub-collections. -/
theorem claim6_type_filters (bs : SWPBasisSet) (t u : SiegertType)
    (s : SiegertState) (hne : t ≠ u) :
    (s.stype = SiegertType.bound ∨ s.stype = SiegertType.antibound ∨
      s.stype = SiegertType.resonant ∨ s.stype = SiegertType.antiresonant ∨
      s.stype = SiegertType.continuum) ∧
    (¬(s.stype = t ∧ s.stype = u)) ∧
    (bs.bounds = bs.ofType SiegertType.bound ∧
      bs.antibounds = bs.ofType SiegertType.antibound ∧
      bs.resonants = bs.ofType SiegertType.resonant ∧
      bs.antiresonants = bs.ofType SiegertType.antiresonant) ∧
    (∀ r ∈ (bs.ofType t).states, r ∈ bs.states ∧ r.stype = t) ∧
    (∀ r ∈ bs.states, r.stype = t → r ∈ (bs.ofType t).states) ∧
    ((bs.ofType t).states.Sublist bs.states) ∧
    (∀ r, r ∈ (bs.ofType t).states → r ∉ (bs.ofType u).states) := by
  refine ⟨?_, ?_, ⟨rfl, rfl, rfl, rfl⟩, ?_, ?_, ?_, ?_⟩
  · cases hs : s.stype <;> simp
  · rintro ⟨h1, h2⟩
    exact hne (h1.symm.trans h2)
  · intro r hr
    have h := List.mem_filter.mp hr
    exact ⟨h.1, of_decide_eq_true h.2⟩
  · intro r hr hst
    exact List.mem_filter.mpr ⟨hr, decide_eq_true hst⟩
  · exact List.filter_sublist _
  · intro r h1 h2
    have e1 := of_decide_eq_true (List.mem_filter.mp h1).2
    have e2 := of_decide_eq_true (List.mem_filter.mp h2).2
    exact hne (e1.symm.trans e2)

/-- Closed evaluation of `claim6_type_filters` on a concrete basis set. -/
theorem claim6_type_filters_witness :
    (SiegertType.bound ≠ SiegertType.resonant) ∧
    (∀ r, r ∈ (sampleSet.ofType SiegertType.bound).states →
      r ∉ (sampleSet.ofType SiegertType.resonant).states) :=
  ⟨by decide,
    (claim6_type_filters sampleSet SiegertType.bound SiegertType.resonant
      sampleBound (by decide)).2.2.2.2.2.2⟩

/-- The grid size, cast to `ℚ`, is at most `kmax / hk`. -/
theorem contGridSize_cast_le (kmax hk : ℚ) (hhk : 0 < hk) (hkm : 0 < kmax) :
    (contGridSize kmax hk : ℚ) ≤ kmax / hk := by
  have h0 : (0 : ℚ) ≤ kmax / hk := le_of_lt (div_pos hkm hhk)
  have hnn : (0 : ℤ) ≤ ⌊kmax / hk⌋ := Int.floor_nonneg.mpr h0
  have h1 : ((⌊kmax / hk⌋.toNat : ℤ) : ℚ) ≤ kmax / hk := by
    rw [Int.toNat_of_nonneg hnn]
    exact Int.floor_le _
  unfold contGridSize
  exact_mod_cast h1

/-- Every wavenumber of the continuum grid stays below the cutoff. -/
theorem continuumGrid_le_kmax (kmax hk : ℚ) (hhk : 0 < hk) (hkm : 0 < kmax)
    (k : ℚ) (hk2 : k ∈ continuumGrid kmax hk) : k ≤ kmax := by
  rcases List.mem_map.mp hk2 with ⟨i, hi, rfl⟩
  have hilt : i < contGridSize kmax hk := List.mem_range.mp hi
  have h1 : (i : ℚ) + 1 ≤ (contGridSize kmax hk : ℚ) := by
    exact_mod_cast Nat.succ_le_of_lt hilt
  have h2 : (i : ℚ) + 1 ≤ kmax / hk :=
    h1.trans (contGridSize_cast_le kmax hk hhk hkm)
  calc hk * ((i : ℚ) + 1) ≤ hk * (kmax / hk) :=
        mul_le_mul_of_nonneg_left h2 hhk.le
    _ = kmax := by
        rw [mul_comm]
        exact div_mul_cancel₀ kmax (ne_of_gt hhk)

/-- The wavenumbers of the found continuum states are exactly the uniform
grid. -/
theorem find_continuum_states_wavenumbers (pot : SWPotential) (kmax hk : ℚ)
    (g : Option (List ℚ)) :
    (SWPBasisSet.find_continuum_states pot kmax hk g).states.map
        (fun s => s.wavenumber.1) =
      continuumGrid kmax hk := by
  show List.map _ (List.map _ (continuumGrid kmax hk)) = continuumGrid kmax hk
  rw [List.map_map]
  exact List.map_id _

/-- Claim C3: for every potential and positive `kmax` and `hk`,
`SWPBasisSet.find_continuum_states(pot, kmax, hk)` returns continuum states
of that potential whose real wavenumbers form a uniform grid with step `hk`
and cutoff `kmax`: successive wavenumbers differ by exactly `hk`, and none
exceeds `kmax`. -/
theorem claim3_continuum_states_grid (pot : SWPotential) (kmax hk : ℚ)
    (g : Option (List ℚ)) (hhk : 0 < hk) (hkm : 0 < kmax) :
    (∀ s ∈ (SWPBasisSet.find_continuum_states pot kmax hk g).states,
      s.stype = SiegertType.continuum ∧ s.potential = pot ∧
        s.wavenumber.2 = 0 ∧ s.wavenumber.1 ≤ kmax) ∧
    (∀ i : ℕ,
      i + 1 < (SWPBasisSet.find_continuum_states pot kmax hk g).states.length →
      ∃ ki ki1 : ℚ,
        ((SWPBasisSet.find_continuum_states pot kmax hk g).states.map
          (fun s => s.wavenumber.1))[i]? = some ki ∧
        ((SWPBasisSet.find_continuum_states pot kmax hk g).states.map
          (fun s => s.wavenumber.1))[i + 1]? = some ki1 ∧
        ki1 = ki + hk) := by
  constructor
  · intro s hs
    rcases List.mem_map.mp hs with ⟨k, hkmem, rfl⟩
    exact ⟨rfl, rfl, rfl, continuumGrid_le_kmax kmax hk hhk hkm k hkmem⟩
  · intro i hi
    have hlen : (SWPBasisSet.find_continuum_states pot kmax hk g).states.length =
        contGridSize kmax hk := by
      simp [SWPBasisSet.find_continuum_states, continuumGrid]
    rw [hlen] at hi
    refine ⟨hk * (i + 1), hk * (i + 1 + 1), ?_, ?_, by ring⟩
    · rw [find_continuum_states_wavenumbers]
      have hilt : i < contGridSize kmax hk := by omega
      simp [continuumGrid, List.getElem?_map, List.getElem?_range, hilt]
    · rw [find_continuum_states_wavenumbers]
      simp [continuumGrid, List.getElem?_map, List.getElem?_range, hi]

/-- Closed evaluation of `claim3_continuum_states_grid` at a concrete
potential, cutoff 3 and step 1. -/
theorem claim3_continuum_states_grid_witness :
    ((0 : ℚ) < 1) ∧ ((0 : ℚ) < 3) ∧
    (∀ s ∈ (SWPBasisSet.find_continuum_states samplePot 3 1 none).states,
      s.stype = SiegertType.continuum ∧ s.potential = samplePot ∧
        s.wavenumber.2 = 0 ∧ s.wavenumber.1 ≤ 3) :=
  ⟨by norm_num, by norm_num,
    (claim3_continuum_states_grid samplePot 3 1 none (by norm_num)
      (by norm_num)).1⟩

/-- Claim C2: every operation that yields a basis set (loading with
`SWPBasisSet.from_file`, `find_continuum_states`, `find_Siegert_states`,
concatenating two sets over the same potential, filtering by type) yields a
set all of whose states share the same potential; in particular, for every
non-empty basis set sharing a potential, the potential of any state equals
the potential of every other state and of the set itself. -/
theorem claim2_shared_potential (data : SiegertData) (nres : ℕ)
    (pot : SWPotential) (kmax hk : ℚ) (g : Option (List ℚ))
    (found : List (SiegertType × ℚ × ℚ)) (t : SiegertType)
    (a b bs : SWPBasisSet) (p : SWPotential)
    (ha : sharedPotential a p) (hb : sharedPotential b p)
    (hbs : sharedPotential bs p) (hne : bs.states ≠ []) :
    sharedPotential (SWPBasisSet.from_file data nres) data.pot ∧
    sharedPotential (SWPBasisSet.find_continuum_states pot kmax hk g) pot ∧
    sharedPotential (SWPBasisSet.find_Siegert_states pot found g) pot ∧
    sharedPotential (a.add b) p ∧
    sharedPotential (bs.ofType t) p ∧
    bs.potential = some p ∧
    (∀ s ∈ bs.states, ∀ s2 ∈ bs.states, s.potential = s2.potential) := by
  refine ⟨?_, ?_, ?_, ?_, ?_, ?_, ?_⟩
  · intro s hs
    simp only [SWPBasisSet.from_file, List.mem_append] at hs
    rcases hs with ((hh | hh) | hh) | hh <;>
      (rcases List.mem_map.mp hh with ⟨k, _, rfl⟩; rfl)
  · intro s hs
    rcases List.mem_map.mp hs with ⟨k, _, rfl⟩
    rfl
  · intro s hs
    rcases List.mem_map.mp hs with ⟨tk, _, rfl⟩
    rfl
  · intro s hs
    rcases List.mem_append.mp hs with h | h
    · exact ha s h
    · exact hb s h
  · intro s hs
    exact hbs s (List.mem_filter.mp hs).1
  · cases hl : bs.states with
    | nil => exact absurd hl hne
    | cons s rest =>
        have hsp : s.potential = p := by
          refine hbs s ?_
          rw [hl]
          exact List.mem_cons_self s rest
        simp [SWPBasisSet.potential, hl, hsp]
  · intro s hs s2 hs2
    rw [hbs s hs, hbs s2 hs2]

/-- Closed evaluation of `claim2_shared_potential` on a concrete non-empty
basis set over `samplePot`. -/
theorem claim2_shared_potential_witness :
    sharedPotential sampleSet samplePot ∧ sampleSet.states ≠ [] ∧
    sampleSet.potential = some samplePot :=
  ⟨by decide, by decide,
    (claim2_shared_potential sampleData 1 samplePot 3 1 none []
      SiegertType.bound ⟨[sampleBound]⟩ ⟨[sampleRes1]⟩ sampleSet samplePot
      (by decide) (by decide) (by decide) (by decide)).2.2.2.2.2.1⟩

/-- Filtering a mapped block whose images all fail the predicate gives the
empty list. -/
theorem filter_map_none {α : Type} (f : α → SiegertState)
    (pred : SiegertState → Bool) (l : List α) (h : ∀ x, pred (f x) = false) :
    (l.map f).filter pred = [] := by
  induction l with
  | nil => rfl
  | cons x xs ih => simp [List.filter_cons, h x, ih]

/-- Filtering a mapped block whose images all satisfy the predicate keeps
the whole block. -/
theorem filter_map_all {α : Type} (f : α → SiegertState)
    (pred : SiegertState → Bool) (l : List α) (h : ∀ x, pred (f x) = true) :
    (l.map f).filter pred = l.map f := by
  induction l with
  | nil => rfl
  | cons x xs ih => simp [List.filter_cons, h x, ih]

/-- The resonant states of a loaded set are exactly the mapped resonant
block. -/
theorem from_file_resonants (data : SiegertData) (nres : ℕ) :
    (SWPBasisSet.from_file data nres).resonants.states =
      (data.resonantKs.take nres).map
        (fun k => (⟨SiegertType.resonant, k, data.pot, none⟩ : SiegertState)) := by
  simp only [SWPBasisSet.resonants, SWPBasisSet.ofType, SWPBasisSet.from_file]
  rw [List.filter_append, List.filter_append, List.filter_append,
    filter_map_none _ _ _ (fun x => rfl), filter_map_none _ _ _ (fun x => rfl),
    filter_map_all _ _ _ (fun x => rfl), filter_map_none _ _ _ (fun x => rfl)]
  simp

/-- The antiresonant states of a loaded set are exactly the mapped
antiresonant block. -/
theorem from_file_antiresonants (data : SiegertData) (nres : ℕ) :
    (SWPBasisSet.from_file data nres).antiresonants.states =
      (data.resonantKs.take nres).map
        (fun k => (⟨SiegertType.antiresonant, mirrorWavenumber k, data.pot,
          none⟩ : SiegertState)) := by
  simp only [SWPBasisSet.antiresonants, SWPBasisSet.ofType, SWPBasisSet.from_file]
  rw [List.filter_append, List.filter_append, List.filter_append,
    filter_map_none _ _ _ (fun x => rfl), filter_map_none _ _ _ (fun x => rfl),
    filter_map_none _ _ _ (fun x => rfl), filter_map_all _ _ _ (fun x => rfl)]
  simp

/-- Claim C9: in a Siegert basis set loaded by `SWPBasisSet.from_file`,
resonant and antiresonant states come in equal numbers and are
index-aligned: the two filters have the same length, and at every index the
resonant and the antiresonant state form a resonant couple of the same
potential. -/
theorem claim9_loaded_couples (data : SiegertData) (nres : ℕ) :
    ((SWPBasisSet.from_file data nres).resonants.size =
      (SWPBasisSet.from_file data nres).antiresonants.size) ∧
    (∀ i : ℕ,
      ∀ h1 : i < (SWPBasisSet.from_file data nres).resonants.states.length,
      ∀ h2 : i < (SWPBasisSet.from_file data nres).antiresonants.states.length,
      resonantCouple ((SWPBasisSet.from_file data nres).resonants.states[i])
        ((SWPBasisSet.from_file data nres).antiresonants.states[i])) := by
  constructor
  · show (SWPBasisSet.from_file data nres).resonants.states.length =
      (SWPBasisSet.from_file data nres).antiresonants.states.length
    rw [from_file_resonants, from_file_antiresonants]
    simp
  · intro i h1 h2
    have e1 : (SWPBasisSet.from_file data nres).resonants.states[i] =
        (⟨SiegertType.resonant, (data.resonantKs.take nres).get
          ⟨i, by rw [from_file_resonants] at h1; simpa using h1⟩,
          data.pot, none⟩ : SiegertState) := by
      simp [from_file_resonants]
    have e2 : (SWPBasisSet.from_file data nres).antiresonants.states[i] =
        (⟨SiegertType.antiresonant, mirrorWavenumber
          ((data.resonantKs.take nres).get
            ⟨i, by rw [from_file_antiresonants] at h2; simpa using h2⟩),
          data.pot, none⟩ : SiegertState) := by
      simp [from_file_antiresonants]
    rw [e1, e2]
    exact ⟨rfl, rfl, rfl, rfl⟩

/-- Closed evaluation of `claim9_loaded_couples` on concrete tabulated
data. -/
theorem claim9_loaded_couples_witness :
    ((SWPBasisSet.from_file sampleData 2).resonants.size =
      (SWPBasisSet.from_file sampleData 2).antiresonants.size) ∧
    resonantCouple
      ((SWPBasisSet.from_file sampleData 2).resonants.states.get ⟨1, by decide⟩)
      ((SWPBasisSet.from_file sampleData 2).antiresonants.states.get ⟨1, by decide⟩) :=
  ⟨(claim9_loaded_couples sampleData 2).1,
    (claim9_loaded_couples sampleData 2).2 1 (by decide) (by decide)⟩

/-- Claim C1: for every initial wavepacket and every time grid, each of the
four propagation operations (`exact_propagation`, `exact_Siegert_propagation`,
`MLE_propagation`, `Berggren_propagation`) evaluates the propagated
wavepacket at exactly the times of the given time grid, returning one
propagated wavefunction per time: all four results have the length of the
time grid, and row `i` is the expansion evaluated at `time_grid[i]`, so all
expansions compared in a study share the same fixed time grid. -/
theorem claim1_propagation_time_grid (bs : SWPBasisSet)
    (amp : SiegertState → TestFunction → ℚ → ℚ → ℚ) (test : TestFunction)
    (xgrid time_grid : List ℚ) :
    ((bs.exact_propagation amp test xgrid time_grid).length = time_grid.length) ∧
    ((bs.exact_Siegert_propagation amp test xgrid time_grid).length = time_grid.length) ∧
    ((bs.MLE_propagation amp test xgrid time_grid).length = time_grid.length) ∧
    ((bs.Berggren_propagation amp test xgrid time_grid).length = time_grid.length) ∧
    (∀ i : ℕ, ∀ h : i < time_grid.length,
      (bs.exact_propagation amp test xgrid time_grid)[i]? =
        some (propagationRow amp bs.states test xgrid time_grid[i]) ∧
      (bs.exact_Siegert_propagation amp test xgrid time_grid)[i]? =
        some (propagationRow amp bs.siegertStates test xgrid time_grid[i]) ∧
      (bs.MLE_propagation amp test xgrid time_grid)[i]? =
        some (propagationRow amp bs.siegertStates test xgrid time_grid[i]) ∧
      (bs.Berggren_propagation amp test xgrid time_grid)[i]? =
        some (propagationRow amp bs.berggrenStates test xgrid time_grid[i])) := by
  refine ⟨?_, ?_, ?_, ?_, ?_⟩
  · simp [SWPBasisSet.exact_propagation]
  · simp [SWPBasisSet.exact_Siegert_propagation]
  · simp [SWPBasisSet.MLE_propagation]
  · simp [SWPBasisSet.Berggren_propagation]
  · intro i h
    refine ⟨?_, ?_, ?_, ?_⟩ <;>
      simp [SWPBasisSet.exact_propagation, SWPBasisSet.exact_Siegert_propagation,
        SWPBasisSet.MLE_propagation, SWPBasisSet.Berggren_propagation,
        List.getElem?_map, List.getElem?_eq_getElem, h]

/-- Closed evaluation of `claim1_propagation_time_grid` on a concrete set,
kernel composition and time grid. -/
theorem claim1_propagation_time_grid_witness :
    (1 < ([(0 : ℚ), 1, 2] : List ℚ).length) ∧
    ((sampleSet.exact_propagation sampleAmp sampleTest [0, 1] [0, 1, 2]).length =
      ([(0 : ℚ), 1, 2] : List ℚ).length) ∧
    ((sampleSet.Berggren_propagation sampleAmp sampleTest [0, 1] [0, 1, 2])[1]? =
      some (propagationRow sampleAmp sampleSet.berggrenStates sampleTest [0, 1]
        (([(0 : ℚ), 1, 2] : List ℚ).get ⟨1, by decide⟩))) :=
  ⟨by decide,
    (claim1_propagation_time_grid sampleSet sampleAmp sampleTest [0, 1] [0, 1, 2]).1,
    ((claim1_propagation_time_grid sampleSet sampleAmp sampleTest [0, 1]
      [0, 1, 2]).2.2.2.2 1 (by decide)).2.2.2⟩

/-- Discretizing every state of a set over a spatial grid preserves the
shared potential. -/
theorem discretizeSet_shared (bs : SWPBasisSet) (p : SWPotential) (g : List ℚ)
    (h : sharedPotential bs p) : sharedPotential (discretizeSet bs g) p := by
  intro s hs
  rcases List.mem_map.mp hs with ⟨r, hr, rfl⟩
  exact h r hr

/-- Discretizing one set of a list of sets preserves the shared potential of
every set. -/
theorem discretizeIdx_shared (sets : List SWPBasisSet) (i : ℕ) (g : List ℚ)
    (p : SWPotential) (h : ∀ bs ∈ sets, sharedPotential bs p) :
    ∀ bs ∈ discretizeIdx sets i g, sharedPotential bs p := by
  induction sets generalizing i with
  | nil =>
      intro bs hbs
      simp [discretizeIdx] at hbs
  | cons b rest ih =>
      cases i with
      | zero =>
          intro bs hbs
          rcases List.mem_cons.mp hbs with rfl | hbs2
          · exact discretizeSet_shared b p g (h b (List.mem_cons_self b rest))
          · exact h bs (List.mem_cons_of_mem b hbs2)
      | succ n =>
          intro bs hbs
          rcases List.mem_cons.mp hbs with rfl | hbs2
          · exact h bs (List.mem_cons_self bs rest)
          · exact ih n (fun c hc => h c (List.mem_cons_of_mem b hc)) bs hbs2

/-- One library operation preserves the study invariant: the potential under
study is unchanged, and every set still shares it. -/
theorem runOp_preserves_shared (p : SWPotential) (st : Study) (op : LibOp)
    (h : studyShared st p) : studyShared (runOp st op).2 p := by
  rcases h with ⟨hpot, hsets⟩
  cases op with
  | findSiegert found grid =>
      refine ⟨hpot, ?_⟩
      intro bs hbs
      rcases List.mem_append.mp hbs with hbs2 | hbs2
      · exact hsets bs hbs2
      · rcases List.mem_singleton.mp hbs2 with rfl
        intro s hs
        rcases List.mem_map.mp hs with ⟨tk, _, rfl⟩
        exact hpot
  | findContinuum kmax hk grid =>
      refine ⟨hpot, ?_⟩
      intro bs hbs
      rcases List.mem_append.mp hbs with hbs2 | hbs2
      · exact hsets bs hbs2
      · rcases List.mem_singleton.mp hbs2 with rfl
        intro s hs
        rcases List.mem_map.mp hs with ⟨k, _, rfl⟩
        exact hpot
  | discretize i g => exact ⟨hpot, discretizeIdx_shared st.sets i g p hsets⟩
  | propagate kind amp i test xgrid time_grid => exact ⟨hpot, hsets⟩
  | completeness boundPart contrib i test hk kmax => exact ⟨hpot, hsets⟩
  | strength coupling i test kgrid => exact ⟨hpot, hsets⟩
  | concat i j => exact ⟨hpot, hsets⟩

/-- A whole sequence of library operations preserves the study invariant. -/
theorem runOps_preserves_shared (p : SWPotential) (st : Study)
    (ops : List LibOp) (h : studyShared st p) :
    studyShared (runOps st ops) p := by
  induction ops generalizing st with
  | nil => exact h
  | cons op rest ih => exact ih (runOp st op).2 (runOp_preserves_shared p st op h)

/-- Claim C7: a potential is immutable once constructed: after any sequence
of library operations (state finding, discretization, propagation,
completeness or strength-function evaluation, concatenation), the width and
depth of the study's potential equal the values given at construction,
every state of every basis set still carries that same potential, and
discretization touches only the grid of a state, never its potential, type
or wavenumber. -/
theorem claim7_potential_immutable (w d : ℚ) (sets : List SWPBasisSet)
    (ops : List LibOp)
    (hsets : ∀ bs ∈ sets, sharedPotential bs ⟨w, d⟩) :
    ((runOps ⟨⟨w, d⟩, sets⟩ ops).pot.width = w) ∧
    ((runOps ⟨⟨w, d⟩, sets⟩ ops).pot.depth = d) ∧
    (∀ bs ∈ (runOps ⟨⟨w, d⟩, sets⟩ ops).sets, sharedPotential bs ⟨w, d⟩) ∧
    (∀ (s : SiegertState) (g : List ℚ),
      (s.setGrid g).potential = s.potential ∧
      (s.setGrid g).stype = s.stype ∧
      (s.setGrid g).wavenumber = s.wavenumber) := by
  have hinv : studyShared (runOps ⟨⟨w, d⟩, sets⟩ ops) ⟨w, d⟩ :=
    runOps_preserves_shared ⟨w, d⟩ ⟨⟨w, d⟩, sets⟩ ops ⟨rfl, hsets⟩
  refine ⟨?_, ?_, hinv.2, ?_⟩
  · rw [hinv.1]
  · rw [hinv.1]
  · intro s g
    exact ⟨rfl, rfl, rfl⟩

/-- Closed evaluation of `claim7_potential_immutable` on a concrete study
running a discretization, a continuum search and a concatenation. -/
theorem claim7_potential_immutable_witness :
    (∀ bs ∈ [sampleSet], sharedPotential bs ⟨2, 10⟩) ∧
    ((runOps ⟨⟨2, 10⟩, [sampleSet]⟩
      [LibOp.discretize 0 [0, 1], LibOp.findContinuum 3 1 none,
        LibOp.concat 0 1]).pot.width = 2) :=
  ⟨by decide,
    (claim7_potential_immutable 2 10 [sampleSet]
      [LibOp.discretize 0 [0, 1], LibOp.findContinuum 3 1 none,
        LibOp.concat 0 1] (by decide)).1⟩

/-- Claim C8: every listed library operation is a pure function: run as a
study operation, a propagation, completeness evaluation, strength-function
evaluation or concatenation leaves the study (its basis sets, their states
and the potential) unchanged, and a second invocation with the same
arguments returns the identical result. -/
theorem claim8_pure_operations (st : Study) (op : LibOp)
    (hp : pureLibOp op) :
    ((runOp st op).2 = st) ∧
    ((runOp (runOp st op).2 op).1 = (runOp st op).1) := by
  cases op with
  | findSiegert found grid => exact False.elim hp
  | findContinuum kmax hk grid => exact False.elim hp
  | discretize i g => exact False.elim hp
  | propagate kind amp i test xgrid time_grid => exact ⟨rfl, rfl⟩
  | completeness boundPart contrib i test hk kmax => exact ⟨rfl, rfl⟩
  | strength coupling i test kgrid => exact ⟨rfl, rfl⟩
  | concat i j => exact ⟨rfl, rfl⟩

/-- Closed evaluation of `claim8_pure_operations` on a concrete study and a
concrete strength-function evaluation. -/
theorem claim8_pure_operations_witness :
    pureLibOp (LibOp.strength sampleCoupling 0 sampleTest [1, 2]) ∧
    ((runOp ⟨samplePot, [sampleSet]⟩
        (LibOp.strength sampleCoupling 0 sampleTest [1, 2])).2 =
      ⟨samplePot, [sampleSet]⟩) :=
  ⟨trivial,
    (claim8_pure_operations ⟨samplePot, [sampleSet]⟩
      (LibOp.strength sampleCoupling 0 sampleTest [1, 2]) trivial).1⟩

/-- A sum over discrete Siegert states splits into the sums over the four
type filters. -/
theorem sum_partition_types (l : List SiegertState) (g : SiegertState → ℚ)
    (h : ∀ s ∈ l, s.stype ≠ SiegertType.continuum) :
    (l.map g).sum =
      (((l.filter fun s => decide (s.stype = SiegertType.bound)).map g).sum +
        ((l.filter fun s => decide (s.stype = SiegertType.antibound)).map g).sum) +
      (((l.filter fun s => decide (s.stype = SiegertType.resonant)).map g).sum +
        ((l.filter fun s => decide (s.stype = SiegertType.antiresonant)).map g).sum) := by
  induction l with
  | nil => simp
  | cons s rest ih =>
      have hrest : ∀ r ∈ rest, r.stype ≠ SiegertType.continuum :=
        fun r hr => h r (List.mem_cons_of_mem s hr)
      have hs := h s (List.mem_cons_self s rest)
      cases hst : s.stype with
      | continuum => exact absurd hst hs
      | bound =>
          simp only [List.map_cons, List.sum_cons, List.filter_cons, hst, ih hrest]
          simp
          ring
      | antibound =>
          simp only [List.map_cons, List.sum_cons, List.filter_cons, hst, ih hrest]
          simp
          ring
      | resonant =>
          simp only [List.map_cons, List.sum_cons, List.filter_cons, hst, ih hrest]
          simp
          ring
      | antiresonant =>
          simp only [List.map_cons, List.sum_cons, List.filter_cons, hst, ih hrest]
          simp
          ring

/-- The sum of a two-term kernel over the zip of two equally long lists is
the sum of the two separate sums. -/
theorem sum_zip_add (xs ys : List SiegertState) (f g : SiegertState → ℚ)
    (h : xs.length = ys.length) :
    ((xs.zip ys).map fun p => f p.1 + g p.2).sum =
      (xs.map f).sum + (ys.map g).sum := by
  induction xs generalizing ys with
  | nil =>
      cases ys with
      | nil => simp
      | cons y ys => simp at h
  | cons x xs ih =>
      cases ys with
      | nil => simp at h
      | cons y ys =>
          have h2 : xs.length = ys.length := by simpa using h
          simp only [List.zip_cons_cons, List.map_cons, List.sum_cons, ih ys h2]
          ring

/-- Pointwise addition of two arrays obtained by mapping over the same
grid. -/
theorem addLists_map (kg : List ℚ) (f g : ℚ → ℚ) :
    addLists (kg.map f) (kg.map g) = kg.map fun k => f k + g k := by
  induction kg with
  | nil => rfl
  | cons k ks ih =>
      simp only [List.map_cons, addLists, List.zipWith_cons_cons] at ih ⊢
      rw [ih]

/-- Pointwise summation of a list of arrays, all obtained by mapping over
the same grid, is the map of the pointwise sums. -/
theorem sumLists_map_rows {α : Type} (kg : List ℚ) (cs : List α)
    (F : α → ℚ → ℚ) :
    sumLists kg.length (cs.map fun c => kg.map (F c)) =
      kg.map fun k => (cs.map fun c => F c k).sum := by
  induction cs with
  | nil =>
      show List.replicate kg.length 0 = _
      induction kg with
      | nil => rfl
      | cons k ks ihk =>
          show (0 : ℚ) :: List.replicate ks.length 0 = _
          rw [ihk]
          rfl
  | cons c cs ih =>
      show addLists (kg.map (F c)) (sumLists kg.length (cs.map fun c => kg.map (F c))) = _
      rw [ih, addLists_map]
      apply List.map_congr_left
      intro k _
      simp

/-- Claim C4: the Mittag-Leffler expansion of the strength function is
additive over a partition of the Siegert basis set: for every coupling
kernel, test function and wavenumber grid, `MLE_strength_function` on the
full discrete set equals `MLE_strength_function` on the bound-plus-antibound
subset plus (pointwise over the grid) the sum over all resonant couples of
`MLE_strength_function` on the two-state set holding the couple. -/
theorem claim4_MLE_additive (coupling : SiegertState → TestFunction → ℚ → ℚ)
    (test : TestFunction) (kgrid : List ℚ) (bs : SWPBasisSet)
    (hnc : ∀ s ∈ bs.states, s.stype ≠ SiegertType.continuum)
    (hlen : bs.resonants.states.length = bs.antiresonants.states.length) :
    bs.MLE_strength_function coupling test kgrid =
      addLists
        ((bs.bounds.add bs.antibounds).MLE_strength_function coupling test kgrid)
        (sumLists kgrid.length
          ((bs.resonants.states.zip bs.antiresonants.states).map
            fun ra =>
              (SWPBasisSet.mk [ra.1, ra.2]).MLE_strength_function coupling test kgrid)) := by
  have hrows : (bs.resonants.states.zip bs.antiresonants.states).map
      (fun ra =>
        (SWPBasisSet.mk [ra.1, ra.2]).MLE_strength_function coupling test kgrid) =
      (bs.resonants.states.zip bs.antiresonants.states).map
        (fun ra => kgrid.map fun k => coupling ra.1 test k + coupling ra.2 test k) := by
    apply List.map_congr_left
    intro ra _
    apply List.map_congr_left
    intro k _
    simp [strengthAt]
  rw [hrows, sumLists_map_rows, SWPBasisSet.MLE_strength_function,
    SWPBasisSet.MLE_strength_function, addLists_map]
  apply List.map_congr_left
  intro k _
  show strengthAt coupling bs.states test k = _
  have hpart := sum_partition_types bs.states (fun s => coupling s test k) hnc
  have hba : strengthAt coupling (bs.bounds.add bs.antibounds).states test k =
      ((bs.states.filter fun s => decide (s.stype = SiegertType.bound)).map
        (fun s => coupling s test k)).sum +
      ((bs.states.filter fun s => decide (s.stype = SiegertType.antibound)).map
        (fun s => coupling s test k)).sum := by
    show ((((bs.states.filter fun s => decide (s.stype = SiegertType.bound)) ++
      (bs.states.filter fun s => decide (s.stype = SiegertType.antibound))).map
        (fun s => coupling s test k)).sum) = _
    rw [List.map_append, List.sum_append]
  have hra := sum_zip_add bs.resonants.states bs.antiresonants.states
    (fun s => coupling s test k) (fun s => coupling s test k) hlen
  show (bs.states.map fun s => coupling s test k).sum = _
  rw [hpart, hba, hra]
  rfl

/-- Closed evaluation of `claim4_MLE_additive` on a concrete Siegert set
with two resonant couples. -/
theorem claim4_MLE_additive_witness :
    (∀ s ∈ sampleSet.states, s.stype ≠ SiegertType.continuum) ∧
    (sampleSet.resonants.states.length = sampleSet.antiresonants.states.length) ∧
    (sampleSet.MLE_strength_function sampleCoupling sampleTest [1, 2] =
      addLists
        ((sampleSet.bounds.add sampleSet.antibounds).MLE_strength_function
          sampleCoupling sampleTest [1, 2])
        (sumLists ([(1 : ℚ), 2] : List ℚ).length
          ((sampleSet.resonants.states.zip sampleSet.antiresonants.states).map
            fun ra =>
              (SWPBasisSet.mk [ra.1, ra.2]).MLE_strength_function sampleCoupling
                sampleTest [1, 2]))) :=
  ⟨by decide, by decide,
    claim4_MLE_additive sampleCoupling sampleTest [1, 2] sampleSet
      (by decide) (by decide)⟩

/-- The completeness wavenumber grid at a valid index. -/
theorem crGrid_getElem (hk kmax : ℚ) (i : ℕ) (h : i < contGridSize kmax hk + 1) :
    (crGrid hk kmax)[i]? = some (hk * (i : ℚ)) := by
  simp [crGrid, List.getElem?_map, List.getElem?_range, h]

/-- Coarsening the wavenumber step by an integer factor shrinks the grid
size compatibly: `m` copies of the coarse size fit in the fine size. -/
theorem contGridSize_coarse_le (kmax hk : ℚ) (m : ℕ) (hhk : 0 < hk)
    (hkm : 0 < kmax) (hm : 0 < m) :
    m * contGridSize kmax ((m : ℚ) * hk) ≤ contGridSize kmax hk := by
  have hmq : (0 : ℚ) < (m : ℚ) := by exact_mod_cast hm
  have hmhk : 0 < (m : ℚ) * hk := mul_pos hmq hhk
  have h1 : (contGridSize kmax ((m : ℚ) * hk) : ℚ) ≤ kmax / ((m : ℚ) * hk) :=
    contGridSize_cast_le kmax ((m : ℚ) * hk) hmhk hkm
  have hmne : (m : ℚ) ≠ 0 := ne_of_gt hmq
  have hkne : hk ≠ 0 := ne_of_gt hhk
  have h2 : (m : ℚ) * (contGridSize kmax ((m : ℚ) * hk) : ℚ) ≤ kmax / hk := by
    have h3 := mul_le_mul_of_nonneg_left h1 hmq.le
    have h4 : (m : ℚ) * (kmax / ((m : ℚ) * hk)) = kmax / hk := by
      field_simp
      ring
    rw [h4] at h3
    exact h3
  have h5 : ((m * contGridSize kmax ((m : ℚ) * hk) : ℕ) : ℤ) ≤ ⌊kmax / hk⌋ := by
    apply Int.le_floor.mpr
    push_cast
    exact h2
  have h6 := Int.toNat_le_toNat h5
  rw [Int.toNat_natCast] at h6
  exact h6

/-- Claim C10: `exact_completeness_convergence(test, hk, kmax)` returns a
pair `(k_grid, CR)` of two equal-length arrays in which `k_grid` is
uniformly spaced with step `hk`; consequently, for two calls with the same
`kmax` whose steps are in integer ratio `m` (coarse step `m` times the fine
step), the coarse wavenumber grid is a subsequence of the fine one: coarse
`k_grid[i]` equals fine `k_grid[m*i]` at every valid coarse index. -/
theorem claim10_completeness_grids (bs : SWPBasisSet)
    (boundPart : SWPBasisSet → TestFunction → ℚ)
    (contrib : SWPBasisSet → TestFunction → ℚ → ℚ) (test : TestFunction)
    (hk kmax : ℚ) (m : ℕ) (hhk : 0 < hk) (hkm : 0 < kmax) (hm : 0 < m) :
    ((bs.exact_completeness_convergence boundPart contrib test hk kmax).1.length =
      (bs.exact_completeness_convergence boundPart contrib test hk kmax).2.length) ∧
    (∀ i : ℕ,
      i + 1 < (bs.exact_completeness_convergence boundPart contrib test hk kmax).1.length →
      ∃ ki ki1 : ℚ,
        (bs.exact_completeness_convergence boundPart contrib test hk kmax).1[i]? =
          some ki ∧
        (bs.exact_completeness_convergence boundPart contrib test hk kmax).1[i + 1]? =
          some ki1 ∧
        ki1 = ki + hk) ∧
    (∀ i : ℕ,
      i < (bs.exact_completeness_convergence boundPart contrib test
        ((m : ℚ) * hk) kmax).1.length →
      (bs.exact_completeness_convergence boundPart contrib test
        ((m : ℚ) * hk) kmax).1[i]? =
      (bs.exact_completeness_convergence boundPart contrib test hk kmax).1[m * i]?) := by
  have hfst : ∀ hk2 : ℚ,
      (bs.exact_completeness_convergence boundPart contrib test hk2 kmax).1 =
        crGrid hk2 kmax := fun hk2 => rfl
  have hlen : ∀ hk2 : ℚ, (crGrid hk2 kmax).length = contGridSize kmax hk2 + 1 := by
    intro hk2
    simp [crGrid]
  refine ⟨?_, ?_, ?_⟩
  · simp [SWPBasisSet.exact_completeness_convergence, crGrid]
  · intro i hi
    rw [hfst hk, hlen hk] at hi
    refine ⟨hk * (i : ℚ), hk * ((i : ℚ) + 1), ?_, ?_, by ring⟩
    · rw [hfst hk]
      exact crGrid_getElem hk kmax i (by omega)
    · rw [hfst hk, crGrid_getElem hk kmax (i + 1) (by omega)]
      congr 1
      push_cast
      ring
  · intro i hi
    rw [hfst ((m : ℚ) * hk), hlen ((m : ℚ) * hk)] at hi
    have hkey : m * i < contGridSize kmax hk + 1 := by
      have h6 := contGridSize_coarse_le kmax hk m hhk hkm hm
      have h7 : i ≤ contGridSize kmax ((m : ℚ) * hk) := by omega
      have h8 : m * i ≤ m * contGridSize kmax ((m : ℚ) * hk) :=
        Nat.mul_le_mul_left m h7
      omega
    rw [hfst ((m : ℚ) * hk), hfst hk,
      crGrid_getElem ((m : ℚ) * hk) kmax i (by omega),
      crGrid_getElem hk kmax (m * i) hkey]
    congr 1
    push_cast
    ring

/-- Closed evaluation of `claim10_completeness_grids`: the coarse grid of
step 2 sits inside the fine grid of step 1 below cutoff 3. -/
theorem claim10_completeness_grids_witness :
    ((0 : ℚ) < 1) ∧ ((0 : ℚ) < 3) ∧ (0 < 2) ∧
    ((sampleSet.exact_completeness_convergence (fun _ _ => 1) (fun _ _ k => k)
        sampleTest (((2 : ℕ) : ℚ) * 1) 3).1[1]? =
      (sampleSet.exact_completeness_convergence (fun _ _ => 1) (fun _ _ k => k)
        sampleTest 1 3).1[2 * 1]?) :=
  ⟨by norm_num, by norm_num, by norm_num,
    (claim10_completeness_grids sampleSet (fun _ _ => 1) (fun _ _ k => k)
      sampleTest 1 3 2 (by norm_num) (by norm_num) (by norm_num)).2.2 1
      (by norm_num [SWPBasisSet.exact_completeness_convergence, crGrid,
        contGridSize])⟩

end SiegPy
